import Mathlib

/-!
# Verification of the `path_router` route trie

Shallow embedding of `src/lib.rs`: a routing trie for slash-delimited paths
with capture segments (segments whose pattern form starts with a colon).

Strings are modelled as `List Char` wherever the Rust code slices or compares
segment text; the public operations take Lean `String`s and immediately
segment them, exactly like the Rust `add`/`find` wrappers.
-/

set_option autoImplicit false

namespace PathRouter

/-- A path segment (or node label), modelled as the list of its characters. -/
abbrev Seg : Type := List Char

/-- The routing trie of `src/lib.rs`:
`struct Tree { label, value: Option<(T, Vec<&str>)>, branches: Vec<Tree> }`.
The `label` is the node's path segment (empty for a wildcard/capture node),
`value` is the optional terminal: the payload together with the capture
names collected while inserting the pattern that ends here. -/
inductive Tree (α : Type) : Type where
  | mk : (label : Seg) → (value : Option (α × List Seg)) → (branches : List (Tree α)) → Tree α

variable {α : Type}

/-- Accessor for the node label. -/
def Tree.label : Tree α → Seg
  | .mk l _ _ => l

/-- Accessor for the optional terminal value of a node. -/
def Tree.value : Tree α → Option (α × List Seg)
  | .mk _ v _ => v

/-- Accessor for the child list of a node. -/
def Tree.branches : Tree α → List (Tree α)
  | .mk _ _ bs => bs

@[simp] theorem Tree.label_mk (l : Seg) (v : Option (α × List Seg)) (bs : List (Tree α)) :
    (Tree.mk l v bs).label = l := rfl

@[simp] theorem Tree.value_mk (l : Seg) (v : Option (α × List Seg)) (bs : List (Tree α)) :
    (Tree.mk l v bs).value = v := rfl

@[simp] theorem Tree.branches_mk (l : Seg) (v : Option (α × List Seg)) (bs : List (Tree α)) :
    (Tree.mk l v bs).branches = bs := rfl

/-- `Tree::new()`: the empty routing tree (root label is the empty string). -/
def Tree.new : Tree α := .mk [] none []

/-- Splitting a character list on `'/'`, mirroring Rust's `str::split('/')`
(which yields the empty piece for leading, trailing and doubled slashes). -/
def splitSlash : List Char → List (List Char)
  | [] => [[]]
  | c :: cs =>
    if c = '/' then [] :: splitSlash cs
    else
      match splitSlash cs with
      | [] => [[c]]
      | g :: gs => (c :: g) :: gs

/-- `key.split('/').filter(|s| !s.is_empty())`: the normalized segment
sequence of a path or pattern string. -/
def segments (s : String) : List Seg :=
  (splitSlash s.data).filter (fun g => !g.isEmpty)

/-- `segment.starts_with(':')`: recognizes a capture segment of a pattern. -/
def startsColon : Seg → Bool
  | ':' :: _ => true
  | _ => false

/-- `self.branches.iter_mut().find(p)` followed by an in-place update of the
found branch: replaces the first branch satisfying `p` by the tree component
of `f` on it and reports `f`'s error flag; `none` when no branch satisfies
`p`. -/
def updateFirst (p : Tree α → Bool) (f : Tree α → Tree α × Bool) :
    List (Tree α) → Option (List (Tree α) × Bool)
  | [] => none
  | b :: bs =>
    if p b then some ((f b).1 :: bs, (f b).2)
    else
      match updateFirst p f bs with
      | some (bs', e) => some (b :: bs', e)
      | none => none

/-- `Tree::add_`: recursive insertion over the remaining segments. The
boolean result is the error flag — `true` exactly when the Rust code panics
with "Duplicate route!". The in-place mutation of `&mut self` is modelled by
returning the updated tree; mutations performed before a panic are kept,
matching the Rust unwinding semantics. -/
def Tree.add_ : List Seg → Tree α → α → List Seg → Tree α × Bool
  | [], t, v, cl =>
    match t.value with
    | some _ => (t, true)
    | none => (Tree.mk t.label (some (v, cl)) t.branches, false)
  | seg :: rest, t, v, cl =>
    match updateFirst (fun b => b.label == seg) (fun b => Tree.add_ rest b v cl) t.branches with
    | some (bs', e) => (Tree.mk t.label t.value bs', e)
    | none =>
      if startsColon seg then
        let cl' := cl ++ [seg.tail]
        match updateFirst (fun b => b.label == []) (fun b => Tree.add_ rest b v cl') t.branches with
        | some (bs', e) => (Tree.mk t.label t.value bs', e)
        | none =>
          match Tree.add_ rest (Tree.mk [] none []) v cl' with
          | (b', false) => (Tree.mk t.label t.value (t.branches ++ [b']), false)
          | (_, true) => (t, true)
      else
        match Tree.add_ rest (Tree.mk seg none []) v cl with
        | (b', false) => (Tree.mk t.label t.value (t.branches ++ [b']), false)
        | (_, true) => (t, true)

/-- `Tree::add`: segment the pattern and insert with an empty accumulator of
capture names. The boolean is the duplicate-route error flag. -/
def Tree.add (t : Tree α) (key : String) (v : α) : Tree α × Bool :=
  Tree.add_ (segments key) t v []

/-- The branch loop of `Tree::find_`:
`self.branches.iter().filter_map(...).next()`, with the mutable
captured-values vector threaded explicitly. `f` is the recursive call on the
remaining segments. On a wildcard branch the segment is pushed before the
recursive call and popped again (`dropLast`) when the recursion fails. -/
def findList (f : Tree α → List Seg → Option (α × List Seg) × List Seg) (seg : Seg) :
    List (Tree α) → List Seg → Option (α × List Seg) × List Seg
  | [], cap => (none, cap)
  | b :: bs, cap =>
    if b.label == seg then
      match f b cap with
      | (some r, cap') => (some r, cap')
      | (none, cap') => findList f seg bs cap'
    else if b.label == [] then
      match f b (cap ++ [seg]) with
      | (some r, cap') => (some r, cap')
      | (none, cap') => findList f seg bs cap'.dropLast
    else findList f seg bs cap

/-- `Tree::find_`: recursive lookup over the remaining segments, returning
the optional terminal found together with the final state of the
captured-values vector. -/
def Tree.find_ : List Seg → Tree α → List Seg → Option (α × List Seg) × List Seg
  | [], t, cap => (t.value, cap)
  | seg :: rest, t, cap => findList (fun b c => Tree.find_ rest b c) seg t.branches cap

/-- `Tree::find`: segment the path, run `find_` with an empty captured
vector, and zip the terminal's capture names with the captured values. -/
def Tree.find (t : Tree α) (key : String) : Option (α × List (Seg × Seg)) :=
  match Tree.find_ (segments key) t [] with
  | (some (v, labels), cap) => some (v, labels.zip cap)
  | (none, _) => none

/-!
## Specification-side definitions

These definitions restate notions from the specification text (pattern
shape, per-pattern capture names, terminal positions, structural
invariants, and the match relation of §4.3) so that claims can compare the
code's behaviour against them.
-/

/-- The shape of a pattern's segment sequence: every capture segment
(leading colon) is collapsed to the empty wildcard label, literal segments
are kept. Two patterns reach the same trie node exactly when they have the
same shape. -/
def shapeOf (segs : List Seg) : List Seg :=
  segs.map (fun s => if startsColon s then [] else s)

/-- The parameter names declared by a pattern's segment sequence: the text
after the colon of each capture segment, in left-to-right order. -/
def captureNames : List Seg → List Seg
  | [] => []
  | s :: rest => if startsColon s then s.tail :: captureNames rest else captureNames rest

/-- Walks the trie along a label sequence (first child with the given
label at each step) and returns the terminal stored at the reached node. -/
def valueAt : Tree α → List Seg → Option (α × List Seg)
  | t, [] => t.value
  | t, l :: rest =>
    match t.branches.find? (fun b => b.label == l) with
    | some b => valueAt b rest
    | none => none

/-- Whether some pattern is terminated at the node reached by the given
label sequence. -/
def hasTerminal (t : Tree α) (ls : List Seg) : Bool :=
  (valueAt t ls).isSome

/-- All elements of the list are pairwise distinct (first-occurrence
check, like scanning a `Vec` of labels). -/
def allDistinct : List Seg → Bool
  | [] => true
  | l :: ls => !ls.contains l && allDistinct ls

mutual
/-- Structural well-formedness produced by `add`: no node label starts
with a colon (capture segments are stored under the empty wildcard label,
never under their colon-prefixed spelling). -/
def wfTree : Tree α → Bool
  | .mk _ _ bs => wfList bs
/-- `wfTree` for every tree of a child list, also requiring that no child
label starts with a colon. -/
def wfList : List (Tree α) → Bool
  | [] => true
  | b :: bs => !startsColon b.label && wfTree b && wfList bs
end

mutual
/-- The sibling invariant of §3: at every node, no two children share a
label — hence no duplicate literal siblings and at most one wildcard
(empty-labelled) child. -/
def nodupTree : Tree α → Bool
  | .mk _ _ bs => allDistinct (bs.map Tree.label) && nodupList bs
/-- `nodupTree` for every tree of a child list. -/
def nodupList : List (Tree α) → Bool
  | [] => true
  | b :: bs => nodupTree b && nodupList bs
end

mutual
/-- The capture-count invariant: a node whose path from the root passes
through `d` wildcard nodes (counting the node itself) stores terminals
whose capture-name list has length exactly `d`. -/
def capInv : Nat → Tree α → Bool
  | d, .mk _ v bs =>
    (match v with
     | some (_, names) => names.length == d
     | none => true) && capInvList d bs
/-- `capInv` for a child list: a wildcard child is one level deeper in
wildcard count than its parent, a literal child is at the same level. -/
def capInvList : Nat → List (Tree α) → Bool
  | _, [] => true
  | d, b :: bs => capInv (d + (if b.label == [] then 1 else 0)) b && capInvList d bs
end

/-- The match relation of §4.3: `Matches t segs ws r` holds when there is
a root-to-terminal descent of `t` consuming exactly `segs`, ending at a
terminal holding `r`, whose wildcard steps consume exactly the segments
`ws`, in order. A literal step consumes a segment equal to the child's
label; a wildcard step consumes any (non-empty) segment through an
empty-labelled child and records it as a capture. -/
inductive Matches : Tree α → List Seg → List Seg → α × List Seg → Prop where
  | term (t : Tree α) (r : α × List Seg) :
      t.value = some r → Matches t [] [] r
  | lit (t : Tree α) (seg : Seg) (rest ws : List Seg) (r : α × List Seg) (b : Tree α) :
      b ∈ t.branches → b.label = seg → Matches b rest ws r →
      Matches t (seg :: rest) ws r
  | wild (t : Tree α) (seg : Seg) (rest ws : List Seg) (r : α × List Seg) (b : Tree α) :
      b ∈ t.branches → b.label = [] → seg ≠ [] → Matches b rest ws r →
      Matches t (seg :: rest) (seg :: ws) r

/-- Trees reachable from `Tree::new()` by a sequence of `add` calls (a
failing `add` leaves the tree unchanged, so it is harmless to include). -/
inductive Built : Tree α → Prop where
  | new : Built Tree.new
  | add (t : Tree α) (key : String) (v : α) : Built t → Built (t.add key v).1

/-! Sanity checks mirroring the Rust unit tests `can_add_and_find` and
`can_add_and_capture_and_find`. -/

/-- The trie of the Rust unit test `can_add_and_find`. -/
def treeVar : Tree Nat :=
  ((((Tree.new.add "/" 0).1.add "/var" 1).1.add "/var/www" 11).1.add "/var/log" 12).1

/-- The trie of the Rust unit test `can_add_and_capture_and_find`. -/
def treeUser : Tree Nat :=
  (((Tree.new.add "/user/:username" 11).1.add
    "/user/:username/:intent/show" 111).1.add "/user/:username/profile" 112).1

example :
    treeVar.find "/vax" = none ∧ treeVar.find "/var/something" = none ∧
    treeVar.find "////" = some (0, []) ∧ treeVar.find "//var//" = some (1, []) ∧
    treeVar.find "/var/www/" = some (11, []) ∧ treeVar.find "/var/log/" = some (12, []) :=
  ⟨by decide, by decide, by decide, by decide, by decide, by decide⟩

example :
    treeUser.find "/user/myname/delete" = none ∧
    treeUser.find "/user/myname/cook/throw" = none ∧
    treeUser.find "/user/myname" = some (11, [("username".data, "myname".data)]) ∧
    treeUser.find "/user/myname/profile" = some (112, [("username".data, "myname".data)]) ∧
    treeUser.find "/user/myname/cook/show" =
      some (111, [("username".data, "myname".data), ("intent".data, "cook".data)]) :=
  ⟨by decide, by decide, by decide, by decide, by decide⟩

/-!
## Segmentation lemmas
-/

theorem splitSlash_ne_nil (cs : List Char) : splitSlash cs ≠ [] := by
  induction cs with
  | nil => simp [splitSlash]
  | cons c cs ih =>
    simp only [splitSlash]
    split
    · simp
    · split <;> simp

theorem splitSlash_cons_slash (cs : List Char) :
    splitSlash ('/' :: cs) = [] :: splitSlash cs := by
  simp [splitSlash]

theorem splitSlash_cons_ne (c : Char) (cs : List Char) (h : c ≠ '/') :
    splitSlash (c :: cs) =
      match splitSlash cs with
      | [] => [[c]]
      | g :: gs => (c :: g) :: gs := by
  simp [splitSlash, h]

theorem splitSlash_append (xs ys : List Char) :
    splitSlash (xs ++ '/' :: ys) = splitSlash xs ++ splitSlash ys := by
  induction xs with
  | nil => simp [splitSlash]
  | cons c xs ih =>
    by_cases h : c = '/'
    · subst h
      rw [List.cons_append, splitSlash_cons_slash, splitSlash_cons_slash, ih, List.cons_append]
    · rw [List.cons_append, splitSlash_cons_ne c _ h, splitSlash_cons_ne c _ h, ih]
      cases hx : splitSlash xs with
      | nil => exact absurd hx (splitSlash_ne_nil xs)
      | cons g gs => simp

theorem segments_append (xs ys : List Char) :
    segments (String.mk (xs ++ '/' :: ys)) = segments (String.mk xs) ++ segments (String.mk ys) := by
  simp [segments, splitSlash_append, List.filter_append]

theorem segments_mk_nil : segments (String.mk []) = [] := by decide

theorem mem_segments_ne_nil (s : String) : ∀ g ∈ segments s, g ≠ [] := by
  intro g hg
  simp only [segments, List.mem_filter, Bool.not_eq_true'] at hg
  rcases hg with ⟨-, h2⟩
  simp_all

/-!
## `updateFirst` characterization
-/

theorem updateFirst_eq_none {p : Tree α → Bool} {f : Tree α → Tree α × Bool}
    {bs : List (Tree α)} :
    updateFirst p f bs = none ↔ ∀ b ∈ bs, p b = false := by
  induction bs with
  | nil => simp [updateFirst]
  | cons b bs ih =>
    simp only [updateFirst]
    by_cases h : p b = true
    · simp [h]
    · rw [if_neg h]
      cases hu : updateFirst p f bs with
      | some v =>
        obtain ⟨bs', e⟩ := v
        rw [hu] at ih
        simp only [Bool.not_eq_true] at h
        simp [h, ← ih]
      | none =>
        rw [hu] at ih
        simp only [Bool.not_eq_true] at h
        simp [h, ← ih]

theorem updateFirst_eq_some {p : Tree α → Bool} {f : Tree α → Tree α × Bool}
    {bs bs' : List (Tree α)} {e : Bool}
    (h : updateFirst p f bs = some (bs', e)) :
    ∃ l b r, bs = l ++ b :: r ∧ (∀ x ∈ l, p x = false) ∧ p b = true ∧
      bs' = l ++ (f b).1 :: r ∧ e = (f b).2 := by
  induction bs generalizing bs' e with
  | nil => simp [updateFirst] at h
  | cons b0 bs ih =>
    simp only [updateFirst] at h
    by_cases hp : p b0 = true
    · rw [if_pos hp] at h
      have h1 := congrArg Prod.fst (Option.some.inj h)
      have h2 := congrArg Prod.snd (Option.some.inj h)
      simp only at h1 h2
      exact ⟨[], b0, bs, by simp, by simp, hp, by simp [← h1], by simp [← h2]⟩
    · rw [if_neg hp] at h
      cases hu : updateFirst p f bs with
      | none => rw [hu] at h; exact absurd h (by simp)
      | some v =>
        obtain ⟨bs1, e1⟩ := v
        rw [hu] at h
        have h1 : b0 :: bs1 = bs' := congrArg Prod.fst (Option.some.inj h)
        have h2 : e1 = e := congrArg Prod.snd (Option.some.inj h)
        obtain ⟨l, b, r, g1, g2, g3, g4, g5⟩ := ih hu
        refine ⟨b0 :: l, b, r, by simp [g1], ?_, g3, by simp [← h1, g4], by rw [← h2, g5]⟩
        intro x hx
        rcases List.mem_cons.mp hx with hx | hx
        · subst hx; simpa using hp
        · exact g2 x hx

/-!
## Basic facts about `add_`
-/

theorem add_label (segs : List Seg) (t : Tree α) (v : α) (cl : List Seg) :
    (Tree.add_ segs t v cl).1.label = t.label := by
  cases segs with
  | nil =>
    simp only [Tree.add_]
    cases t.value <;> rfl
  | cons seg rest =>
    simp only [Tree.add_]
    split
    · rfl
    · split
      · split
        · rfl
        · split
          · rfl
          · rfl
      · split
        · rfl
        · rfl

theorem add_fresh_no_err (segs : List Seg) (l : Seg) (v : α) (cl : List Seg) :
    (Tree.add_ segs (Tree.mk l none []) v cl).2 = false := by
  induction segs generalizing l cl with
  | nil => simp [Tree.add_]
  | cons seg rest ih =>
    simp only [Tree.add_, Tree.branches_mk, Tree.value_mk, Tree.label_mk, updateFirst]
    by_cases h : startsColon seg
    · rw [if_pos h]
      have h2 := ih [] (cl ++ [seg.tail])
      rcases he : Tree.add_ rest (Tree.mk [] none []) v (cl ++ [seg.tail]) with ⟨b', e⟩
      rw [he] at h2
      simp only at h2
      subst h2
      simp
    · rw [if_neg h]
      have h2 := ih seg cl
      rcases he : Tree.add_ rest (Tree.mk seg none []) v cl with ⟨b', e⟩
      rw [he] at h2
      simp only at h2
      subst h2
      simp

theorem add_err_unchanged (segs : List Seg) (t : Tree α) (v : α) (cl : List Seg) :
    (Tree.add_ segs t v cl).2 = true → (Tree.add_ segs t v cl).1 = t := by
  induction segs generalizing t cl with
  | nil =>
    cases t with
    | mk lb val bs => cases val <;> simp [Tree.add_]
  | cons seg rest ih =>
    cases t with
    | mk lb val bs =>
    simp only [Tree.add_, Tree.branches_mk, Tree.value_mk, Tree.label_mk]
    cases hu : updateFirst (fun b => b.label == seg) (fun b => Tree.add_ rest b v cl) bs with
    | some v2 =>
      obtain ⟨bs', e⟩ := v2
      simp only
      intro he
      subst he
      obtain ⟨pl, b, pr, hbs, -, -, hbs', hee⟩ := updateFirst_eq_some hu
      have hb := ih b cl hee.symm
      rw [hbs, hbs', hb]
    | none =>
      simp only
      by_cases h : startsColon seg
      · rw [if_pos h]
        cases hu2 : updateFirst (fun b => b.label == ([] : Seg))
            (fun b => Tree.add_ rest b v (cl ++ [seg.tail])) bs with
        | some v2 =>
          obtain ⟨bs', e⟩ := v2
          simp only
          intro he
          subst he
          obtain ⟨pl, b, pr, hbs, -, -, hbs', hee⟩ := updateFirst_eq_some hu2
          have hb := ih b (cl ++ [seg.tail]) hee.symm
          rw [hbs, hbs', hb]
        | none =>
          rcases he : Tree.add_ rest (Tree.mk [] none []) v (cl ++ [seg.tail]) with ⟨b', e⟩
          have h2 := add_fresh_no_err rest [] v (cl ++ [seg.tail])
          rw [he] at h2
          simp only at h2
          subst h2
          simp
      · rw [if_neg h]
        rcases he : Tree.add_ rest (Tree.mk seg none []) v cl with ⟨b', e⟩
        have h2 := add_fresh_no_err rest seg v cl
        rw [he] at h2
        simp only at h2
        subst h2
        simp

/-!
## Lookup: case-split lemmas and the backtracking invariants
-/

theorem find_nil (t : Tree α) (cap : List Seg) :
    Tree.find_ [] t cap = (t.value, cap) := rfl

theorem find_cons (seg : Seg) (rest : List Seg) (t : Tree α) (cap : List Seg) :
    Tree.find_ (seg :: rest) t cap =
      findList (fun b c => Tree.find_ rest b c) seg t.branches cap := rfl

theorem findList_nil {f : Tree α → List Seg → Option (α × List Seg) × List Seg} {seg : Seg}
    {cap : List Seg} : findList f seg [] cap = (none, cap) := rfl

theorem findList_cons_lit_some {f : Tree α → List Seg → Option (α × List Seg) × List Seg}
    {seg : Seg} {b : Tree α} {bs : List (Tree α)} {cap cap' : List Seg} {r : α × List Seg}
    (h : b.label = seg) (he : f b cap = (some r, cap')) :
    findList f seg (b :: bs) cap = (some r, cap') := by
  simp [findList, h, he]

theorem findList_cons_lit_none {f : Tree α → List Seg → Option (α × List Seg) × List Seg}
    {seg : Seg} {b : Tree α} {bs : List (Tree α)} {cap cap' : List Seg}
    (h : b.label = seg) (he : f b cap = (none, cap')) :
    findList f seg (b :: bs) cap = findList f seg bs cap' := by
  simp [findList, h, he]

theorem findList_cons_wild_some {f : Tree α → List Seg → Option (α × List Seg) × List Seg}
    {seg : Seg} {b : Tree α} {bs : List (Tree α)} {cap cap' : List Seg} {r : α × List Seg}
    (h1 : b.label ≠ seg) (h2 : b.label = []) (he : f b (cap ++ [seg]) = (some r, cap')) :
    findList f seg (b :: bs) cap = (some r, cap') := by
  have h3 : (b.label == seg) = false := by simp [h1]
  have h4 : (b.label == ([] : Seg)) = true := by simp [h2]
  simp [findList, h3, h4, he]

theorem findList_cons_wild_none {f : Tree α → List Seg → Option (α × List Seg) × List Seg}
    {seg : Seg} {b : Tree α} {bs : List (Tree α)} {cap cap' : List Seg}
    (h1 : b.label ≠ seg) (h2 : b.label = []) (he : f b (cap ++ [seg]) = (none, cap')) :
    findList f seg (b :: bs) cap = findList f seg bs cap'.dropLast := by
  have h3 : (b.label == seg) = false := by simp [h1]
  have h4 : (b.label == ([] : Seg)) = true := by simp [h2]
  simp [findList, h3, h4, he]

theorem findList_cons_other {f : Tree α → List Seg → Option (α × List Seg) × List Seg}
    {seg : Seg} {b : Tree α} {bs : List (Tree α)} {cap : List Seg}
    (h1 : b.label ≠ seg) (h2 : b.label ≠ []) :
    findList f seg (b :: bs) cap = findList f seg bs cap := by
  simp [findList, h1, h2]

theorem findList_restore {f : Tree α → List Seg → Option (α × List Seg) × List Seg} {seg : Seg}
    (hf : ∀ b cap cap', f b cap = (none, cap') → cap' = cap) :
    ∀ (bs : List (Tree α)) (cap cap' : List Seg),
      findList f seg bs cap = (none, cap') → cap' = cap := by
  intro bs
  induction bs with
  | nil =>
    intro cap cap' h
    exact (congrArg Prod.snd h).symm
  | cons b bs ih =>
    intro cap cap' h
    by_cases h1 : b.label = seg
    · rcases he : f b cap with ⟨res, capx⟩
      cases res with
      | some r =>
        rw [findList_cons_lit_some h1 he] at h
        exact absurd (congrArg Prod.fst h) (by simp)
      | none =>
        rw [findList_cons_lit_none h1 he] at h
        have hx : capx = cap := hf b cap capx he
        rw [hx] at h
        exact ih cap cap' h
    · by_cases h2 : b.label = []
      · rcases he : f b (cap ++ [seg]) with ⟨res, capx⟩
        cases res with
        | some r =>
          rw [findList_cons_wild_some h1 h2 he] at h
          exact absurd (congrArg Prod.fst h) (by simp)
        | none =>
          rw [findList_cons_wild_none h1 h2 he] at h
          have hx : capx = cap ++ [seg] := hf b (cap ++ [seg]) capx he
          subst hx
          have hd : (cap ++ [seg]).dropLast = cap := by simp
          rw [hd] at h
          exact ih cap cap' h
      · rw [findList_cons_other h1 h2] at h
        exact ih cap cap' h

theorem find_restore : ∀ (segs : List Seg) (t : Tree α) (cap cap' : List Seg),
    Tree.find_ segs t cap = (none, cap') → cap' = cap := by
  intro segs
  induction segs with
  | nil =>
    intro t cap cap' h
    exact (congrArg Prod.snd h).symm
  | cons seg rest ih =>
    intro t cap cap' h
    rw [find_cons] at h
    exact findList_restore (fun b c c' he => ih b c c' he) t.branches cap cap' h

theorem findList_sound {f : Tree α → List Seg → Option (α × List Seg) × List Seg} {seg : Seg}
    {M : Tree α → List Seg → α × List Seg → Prop}
    (hf_none : ∀ b cap cap', f b cap = (none, cap') → cap' = cap)
    (hf_some : ∀ b cap r cap', f b cap = (some r, cap') →
      ∃ ws, cap' = cap ++ ws ∧ M b ws r) :
    ∀ (bs : List (Tree α)) (cap : List Seg) (r : α × List Seg) (cap' : List Seg),
      findList f seg bs cap = (some r, cap') →
      ∃ ws, cap' = cap ++ ws ∧
        ∃ b ∈ bs, (b.label = seg ∧ M b ws r) ∨
          (b.label ≠ seg ∧ b.label = [] ∧ ∃ ws', ws = seg :: ws' ∧ M b ws' r) := by
  intro bs
  induction bs with
  | nil =>
    intro cap r cap' h
    exact absurd (congrArg Prod.fst h) (by simp [findList_nil])
  | cons b bs ih =>
    intro cap r cap' h
    by_cases h1 : b.label = seg
    · rcases he : f b cap with ⟨res, capx⟩
      cases res with
      | some r0 =>
        rw [findList_cons_lit_some h1 he] at h
        have hr : r0 = r := by
          have := congrArg Prod.fst h
          simpa using this
        have hc : capx = cap' := congrArg Prod.snd h
        obtain ⟨ws, hw1, hw2⟩ := hf_some b cap r0 capx he
        exact ⟨ws, by rw [← hc, hw1], b, List.mem_cons_self b bs, Or.inl ⟨h1, hr ▸ hw2⟩⟩
      | none =>
        rw [findList_cons_lit_none h1 he] at h
        have hx : capx = cap := hf_none b cap capx he
        rw [hx] at h
        obtain ⟨ws, hw1, b2, hmem, hcase⟩ := ih cap r cap' h
        exact ⟨ws, hw1, b2, List.mem_cons_of_mem b hmem, hcase⟩
    · by_cases h2 : b.label = []
      · rcases he : f b (cap ++ [seg]) with ⟨res, capx⟩
        cases res with
        | some r0 =>
          rw [findList_cons_wild_some h1 h2 he] at h
          have hr : r0 = r := by
            have := congrArg Prod.fst h
            simpa using this
          have hc : capx = cap' := congrArg Prod.snd h
          obtain ⟨ws0, hw1, hw2⟩ := hf_some b (cap ++ [seg]) r0 capx he
          refine ⟨seg :: ws0, ?_, b, List.mem_cons_self b bs,
            Or.inr ⟨h1, h2, ws0, rfl, hr ▸ hw2⟩⟩
          rw [← hc, hw1, List.append_assoc]
          rfl
        | none =>
          rw [findList_cons_wild_none h1 h2 he] at h
          have hx : capx = cap ++ [seg] := hf_none b (cap ++ [seg]) capx he
          subst hx
          have hd : (cap ++ [seg]).dropLast = cap := by simp
          rw [hd] at h
          obtain ⟨ws, hw1, b2, hmem, hcase⟩ := ih cap r cap' h
          exact ⟨ws, hw1, b2, List.mem_cons_of_mem b hmem, hcase⟩
      · rw [findList_cons_other h1 h2] at h
        obtain ⟨ws, hw1, b2, hmem, hcase⟩ := ih cap r cap' h
        exact ⟨ws, hw1, b2, List.mem_cons_of_mem b hmem, hcase⟩

theorem find_sound : ∀ (segs : List Seg) (t : Tree α) (cap : List Seg) (r : α × List Seg)
    (cap' : List Seg), Tree.find_ segs t cap = (some r, cap') →
    ∃ ws, cap' = cap ++ ws ∧ Matches t segs ws r := by
  intro segs
  induction segs with
  | nil =>
    intro t cap r cap' h
    have h1 : t.value = some r := congrArg Prod.fst h
    have h2 : cap = cap' := congrArg Prod.snd h
    exact ⟨[], by simp [← h2], Matches.term t r h1⟩
  | cons seg rest ih =>
    intro t cap r cap' h
    rw [find_cons] at h
    obtain ⟨ws, hw, b, hmem, hcase⟩ :=
      findList_sound (M := fun b ws r => Matches b rest ws r)
        (fun b c c' he => find_restore rest b c c' he)
        (fun b c r c' he => ih b c r c' he) t.branches cap r cap' h
    refine ⟨ws, hw, ?_⟩
    rcases hcase with ⟨hlab, hm⟩ | ⟨hne, hlab, ws', hws, hm⟩
    · exact Matches.lit t seg rest ws r b hmem hlab hm
    · subst hws
      exact Matches.wild t seg rest ws' r b hmem hlab
        (fun hs => hne (hlab.trans hs.symm)) hm

theorem findList_isSome {f : Tree α → List Seg → Option (α × List Seg) × List Seg} {seg : Seg} :
    ∀ (bs : List (Tree α)),
      (∃ b ∈ bs, (b.label = seg ∧ ∀ cap, (f b cap).1.isSome = true) ∨
        (b.label = [] ∧ seg ≠ [] ∧ ∀ cap, (f b cap).1.isSome = true)) →
      ∀ cap, (findList f seg bs cap).1.isSome = true := by
  intro bs
  induction bs with
  | nil =>
    rintro ⟨b, hb, -⟩
    simp at hb
  | cons b0 bs ih =>
    rintro ⟨b, hbmem, hbcase⟩ cap
    by_cases h1 : b0.label = seg
    · rcases he : f b0 cap with ⟨res, capx⟩
      cases res with
      | some r => rw [findList_cons_lit_some h1 he]; rfl
      | none =>
        rw [findList_cons_lit_none h1 he]
        rcases List.mem_cons.mp hbmem with rfl | hmem
        · rcases hbcase with ⟨-, hs⟩ | ⟨hlab, hne, -⟩
          · have hx := hs cap
            rw [he] at hx
            simp at hx
          · exact absurd (h1.symm.trans hlab) hne
        · exact ih ⟨b, hmem, hbcase⟩ capx
    · by_cases h2 : b0.label = []
      · rcases he : f b0 (cap ++ [seg]) with ⟨res, capx⟩
        cases res with
        | some r => rw [findList_cons_wild_some h1 h2 he]; rfl
        | none =>
          rw [findList_cons_wild_none h1 h2 he]
          rcases List.mem_cons.mp hbmem with rfl | hmem
          · rcases hbcase with ⟨hlab, -⟩ | ⟨-, -, hs⟩
            · exact absurd hlab h1
            · have hx := hs (cap ++ [seg])
              rw [he] at hx
              simp at hx
          · exact ih ⟨b, hmem, hbcase⟩ capx.dropLast
      · rw [findList_cons_other h1 h2]
        rcases List.mem_cons.mp hbmem with rfl | hmem
        · rcases hbcase with ⟨hlab, -⟩ | ⟨hlab, -, -⟩
          · exact absurd hlab h1
          · exact absurd hlab h2
        · exact ih ⟨b, hmem, hbcase⟩ cap

theorem find_complete {t : Tree α} {segs ws : List Seg} {r : α × List Seg}
    (h : Matches t segs ws r) : ∀ cap, (Tree.find_ segs t cap).1.isSome = true := by
  induction h with
  | term t r hv =>
    intro cap
    rw [find_nil]
    simp [hv]
  | lit t seg rest ws r b hmem hlab hm ih =>
    intro cap
    rw [find_cons]
    exact findList_isSome t.branches ⟨b, hmem, Or.inl ⟨hlab, fun c => ih c⟩⟩ cap
  | wild t seg rest ws r b hmem hlab hne hm ih =>
    intro cap
    rw [find_cons]
    exact findList_isSome t.branches ⟨b, hmem, Or.inr ⟨hlab, hne, fun c => ih c⟩⟩ cap

/-!
## Structural invariants preserved by `add`
-/

theorem wfTree_mk (l : Seg) (v : Option (α × List Seg)) (bs : List (Tree α)) :
    wfTree (Tree.mk l v bs) = wfList bs := rfl

theorem wfList_iff {bs : List (Tree α)} :
    wfList bs = true ↔ ∀ b ∈ bs, startsColon b.label = false ∧ wfTree b = true := by
  induction bs with
  | nil => simp [wfList]
  | cons b bs ih =>
    simp [wfList, ih, and_assoc]

theorem wfTree_iff {t : Tree α} :
    wfTree t = true ↔ ∀ b ∈ t.branches, startsColon b.label = false ∧ wfTree b = true := by
  cases t with
  | mk l v bs => rw [wfTree_mk, Tree.branches_mk, wfList_iff]

theorem wf_add (segs : List Seg) (t : Tree α) (v : α) (cl : List Seg)
    (hw : wfTree t = true) : wfTree (Tree.add_ segs t v cl).1 = true := by
  induction segs generalizing t cl with
  | nil =>
    cases t with
    | mk lb val bs =>
      cases val with
      | some p => exact hw
      | none => simpa [Tree.add_, wfTree_mk] using hw
  | cons seg rest ih =>
    cases t with
    | mk lb val bs =>
    rw [wfTree_mk] at hw
    have hwl : ∀ b ∈ bs, startsColon b.label = false ∧ wfTree b = true := wfList_iff.mp hw
    simp only [Tree.add_, Tree.branches_mk, Tree.label_mk, Tree.value_mk]
    cases hu : updateFirst (fun b => b.label == seg) (fun b => Tree.add_ rest b v cl) bs with
    | some v2 =>
      obtain ⟨bs', e⟩ := v2
      obtain ⟨pl, b, pr, hbs, -, -, hbs', -⟩ := updateFirst_eq_some hu
      rw [wfTree_mk, wfList_iff]
      intro x hx
      rw [hbs'] at hx
      rcases List.mem_append.mp hx with hx | hx
      · exact hwl x (by rw [hbs]; exact List.mem_append.mpr (Or.inl hx))
      · have hbmem : b ∈ bs := by
          rw [hbs]; exact List.mem_append.mpr (Or.inr (List.mem_cons_self b pr))
        rcases List.mem_cons.mp hx with rfl | hx
        · refine ⟨?_, ih b cl (hwl b hbmem).2⟩
          rw [add_label]
          exact (hwl b hbmem).1
        · exact hwl x (by rw [hbs]; exact List.mem_append.mpr (Or.inr (List.mem_cons_of_mem b hx)))
    | none =>
      by_cases h : startsColon seg
      · rw [if_pos h]
        cases hu2 : updateFirst (fun b => b.label == ([] : Seg))
            (fun b => Tree.add_ rest b v (cl ++ [seg.tail])) bs with
        | some v2 =>
          obtain ⟨bs', e⟩ := v2
          obtain ⟨pl, b, pr, hbs, -, -, hbs', -⟩ := updateFirst_eq_some hu2
          rw [wfTree_mk, wfList_iff]
          intro x hx
          rw [hbs'] at hx
          rcases List.mem_append.mp hx with hx | hx
          · exact hwl x (by rw [hbs]; exact List.mem_append.mpr (Or.inl hx))
          · have hbmem : b ∈ bs := by
              rw [hbs]; exact List.mem_append.mpr (Or.inr (List.mem_cons_self b pr))
            rcases List.mem_cons.mp hx with rfl | hx
            · refine ⟨?_, ih b (cl ++ [seg.tail]) (hwl b hbmem).2⟩
              rw [add_label]
              exact (hwl b hbmem).1
            · exact hwl x
                (by rw [hbs]; exact List.mem_append.mpr (Or.inr (List.mem_cons_of_mem b hx)))
        | none =>
          rcases he : Tree.add_ rest (Tree.mk [] none []) v (cl ++ [seg.tail]) with ⟨b', e⟩
          have hferr := add_fresh_no_err rest [] v (cl ++ [seg.tail])
          rw [he] at hferr
          simp only at hferr
          subst hferr
          rw [wfTree_mk, wfList_iff]
          intro x hx
          rcases List.mem_append.mp hx with hx | hx
          · exact hwl x hx
          · rw [List.mem_singleton.mp hx]
            have hb' : (Tree.add_ rest (Tree.mk [] none []) v (cl ++ [seg.tail])).1 = b' := by
              rw [he]
            refine ⟨?_, ?_⟩
            · rw [← hb', add_label]
              rfl
            · rw [← hb']
              exact ih (Tree.mk [] none []) (cl ++ [seg.tail]) (by rw [wfTree_mk]; rfl)
      · rw [if_neg h]
        rcases he : Tree.add_ rest (Tree.mk seg none []) v cl with ⟨b', e⟩
        have hferr := add_fresh_no_err rest seg v cl
        rw [he] at hferr
        simp only at hferr
        subst hferr
        rw [wfTree_mk, wfList_iff]
        intro x hx
        rcases List.mem_append.mp hx with hx | hx
        · exact hwl x hx
        · rw [List.mem_singleton.mp hx]
          have hb' : (Tree.add_ rest (Tree.mk seg none []) v cl).1 = b' := by rw [he]
          refine ⟨?_, ?_⟩
          · rw [← hb', add_label, Tree.label_mk]
            simpa using h
          · rw [← hb']
            exact ih (Tree.mk seg none []) cl (by rw [wfTree_mk]; rfl)

/-!
## Capture-count invariant and label distinctness
-/

theorem capInv_mk (d : Nat) (l : Seg) (v : Option (α × List Seg)) (bs : List (Tree α)) :
    capInv d (Tree.mk l v bs) =
      ((match v with
        | some (_, names) => names.length == d
        | none => true) && capInvList d bs) := rfl

theorem capInvList_iff {d : Nat} {bs : List (Tree α)} :
    capInvList d bs = true ↔
      ∀ b ∈ bs, capInv (d + (if b.label == ([] : Seg) then 1 else 0)) b = true := by
  induction bs with
  | nil => simp [capInvList]
  | cons b bs ih => simp [capInvList, ih]

theorem capInv_value {d : Nat} {t : Tree α} (h : capInv d t = true) {v : α} {names : List Seg}
    (hv : t.value = some (v, names)) : names.length = d := by
  cases t with
  | mk l val bs =>
    rw [capInv_mk] at h
    rw [Tree.value_mk] at hv
    subst hv
    simp only [Bool.and_eq_true] at h
    simpa using h.1

theorem capInv_branches {d : Nat} {t : Tree α} (h : capInv d t = true) :
    capInvList d t.branches = true := by
  cases t with
  | mk l val bs =>
    rw [capInv_mk, Bool.and_eq_true] at h
    exact h.2

theorem matches_length {t : Tree α} {segs ws : List Seg} {r : α × List Seg}
    (hm : Matches t segs ws r) :
    ∀ d : Nat, capInv d t = true → (∀ s ∈ segs, s ≠ []) → r.2.length = d + ws.length := by
  induction hm with
  | term t r hv =>
    intro d hc _
    cases r with
    | mk v names => simpa using capInv_value hc hv
  | lit t seg rest ws r b hmem hlab hm ih =>
    intro d hc hne
    have hseg : seg ≠ [] := hne seg (List.mem_cons_self seg rest)
    have hcb := capInvList_iff.mp (capInv_branches hc) b hmem
    have hbl : (b.label == ([] : Seg)) = false := by simp [hlab, hseg]
    have hcb' : capInv d b = true := by simpa [hbl] using hcb
    exact ih d hcb' (fun s hs => hne s (List.mem_cons_of_mem seg hs))
  | wild t seg rest ws r b hmem hlab hne2 hm ih =>
    intro d hc hne
    have hcb := capInvList_iff.mp (capInv_branches hc) b hmem
    have hbl : (b.label == ([] : Seg)) = true := by simp [hlab]
    have hcb' : capInv (d + 1) b = true := by simpa [hbl] using hcb
    have hlen := ih (d + 1) hcb' (fun s hs => hne s (List.mem_cons_of_mem seg hs))
    rw [hlen]
    simp only [List.length_cons]
    omega

theorem capInv_add : ∀ (segs : List Seg) (t : Tree α) (v : α) (cl : List Seg),
    wfTree t = true → capInv cl.length t = true → (∀ s ∈ segs, s ≠ []) →
    capInv cl.length (Tree.add_ segs t v cl).1 = true := by
  intro segs
  induction segs with
  | nil =>
    intro t v cl hw hc hne
    cases t with
    | mk lb val bs =>
      cases val with
      | some p => exact hc
      | none =>
        rw [capInv_mk, Bool.and_eq_true] at hc
        simp only [Tree.add_, Tree.value_mk, Tree.label_mk, Tree.branches_mk]
        rw [capInv_mk, Bool.and_eq_true]
        exact ⟨by simp, hc.2⟩
  | cons seg rest ih =>
    intro t v cl hw hc hne
    cases t with
    | mk lb val bs =>
    have hseg : seg ≠ [] := hne seg (List.mem_cons_self seg rest)
    have hne' : ∀ s ∈ rest, s ≠ [] := fun s hs => hne s (List.mem_cons_of_mem seg hs)
    rw [wfTree_mk] at hw
    have hwl := wfList_iff.mp hw
    rw [capInv_mk, Bool.and_eq_true] at hc
    obtain ⟨hcv, hcl⟩ := hc
    have hcl' := capInvList_iff.mp hcl
    simp only [Tree.add_, Tree.branches_mk, Tree.label_mk, Tree.value_mk]
    cases hu : updateFirst (fun b => b.label == seg) (fun b => Tree.add_ rest b v cl) bs with
    | some v2 =>
      obtain ⟨bs', e⟩ := v2
      obtain ⟨pl, b, pr, hbs, -, hpb, hbs', -⟩ := updateFirst_eq_some hu
      have hblab : b.label = seg := by simpa using hpb
      have hbmem : b ∈ bs := by
        rw [hbs]; exact List.mem_append.mpr (Or.inr (List.mem_cons_self b pr))
      rw [capInv_mk, Bool.and_eq_true]
      refine ⟨hcv, ?_⟩
      rw [capInvList_iff]
      intro x hx
      rw [hbs'] at hx
      rcases List.mem_append.mp hx with hx | hx
      · exact hcl' x (by rw [hbs]; exact List.mem_append.mpr (Or.inl hx))
      · rcases List.mem_cons.mp hx with rfl | hx
        · have hfalse : (b.label == ([] : Seg)) = false := by simp [hblab, hseg]
          have hcb : capInv cl.length b = true := by simpa [hfalse] using hcl' b hbmem
          have hxl := add_label rest b v cl
          have hres := ih b v cl ((hwl b hbmem).2) hcb hne'
          simpa [hxl, hfalse] using hres
        · exact hcl' x
            (by rw [hbs]; exact List.mem_append.mpr (Or.inr (List.mem_cons_of_mem b hx)))
    | none =>
      by_cases h : startsColon seg
      · rw [if_pos h]
        cases hu2 : updateFirst (fun b => b.label == ([] : Seg))
            (fun b => Tree.add_ rest b v (cl ++ [seg.tail])) bs with
        | some v2 =>
          obtain ⟨bs', e⟩ := v2
          obtain ⟨pl, b, pr, hbs, -, hpb, hbs', -⟩ := updateFirst_eq_some hu2
          have hblab : b.label = ([] : Seg) := by simpa using hpb
          have hbmem : b ∈ bs := by
            rw [hbs]; exact List.mem_append.mpr (Or.inr (List.mem_cons_self b pr))
          rw [capInv_mk, Bool.and_eq_true]
          refine ⟨hcv, ?_⟩
          rw [capInvList_iff]
          intro x hx
          rw [hbs'] at hx
          rcases List.mem_append.mp hx with hx | hx
          · exact hcl' x (by rw [hbs]; exact List.mem_append.mpr (Or.inl hx))
          · rcases List.mem_cons.mp hx with rfl | hx
            · have htrue : (b.label == ([] : Seg)) = true := by simp [hblab]
              have hcb : capInv (cl.length + 1) b = true := by simpa [htrue] using hcl' b hbmem
              have hcb2 : capInv (cl ++ [seg.tail]).length b = true := by
                simpa [List.length_append] using hcb
              have hxl := add_label rest b v (cl ++ [seg.tail])
              have hres := ih b v (cl ++ [seg.tail]) ((hwl b hbmem).2) hcb2 hne'
              have hxt : ((Tree.add_ rest b v (cl ++ [seg.tail])).1.label == ([] : Seg)) = true := by
                simp [hxl, hblab]
              rw [hxt]
              simpa [List.length_append] using hres
            · exact hcl' x
                (by rw [hbs]; exact List.mem_append.mpr (Or.inr (List.mem_cons_of_mem b hx)))
        | none =>
          rcases he : Tree.add_ rest (Tree.mk [] none []) v (cl ++ [seg.tail]) with ⟨b', e⟩
          have hferr := add_fresh_no_err rest [] v (cl ++ [seg.tail])
          rw [he] at hferr
          simp only at hferr
          subst hferr
          rw [capInv_mk, Bool.and_eq_true]
          refine ⟨hcv, ?_⟩
          rw [capInvList_iff]
          intro x hx
          rcases List.mem_append.mp hx with hx | hx
          · exact hcl' x hx
          · rw [List.mem_singleton.mp hx]
            have hb' : (Tree.add_ rest (Tree.mk [] none []) v (cl ++ [seg.tail])).1 = b' := by
              rw [he]
            have hxl : b'.label = ([] : Seg) := by rw [← hb', add_label, Tree.label_mk]
            have hres := ih (Tree.mk [] none []) v (cl ++ [seg.tail]) (by rw [wfTree_mk]; rfl)
              (by rw [capInv_mk]; rfl) hne'
            rw [hb'] at hres
            have hxt : (b'.label == ([] : Seg)) = true := by simp [hxl]
            rw [hxt]
            simpa [List.length_append] using hres
      · rw [if_neg h]
        rcases he : Tree.add_ rest (Tree.mk seg none []) v cl with ⟨b', e⟩
        have hferr := add_fresh_no_err rest seg v cl
        rw [he] at hferr
        simp only at hferr
        subst hferr
        rw [capInv_mk, Bool.and_eq_true]
        refine ⟨hcv, ?_⟩
        rw [capInvList_iff]
        intro x hx
        rcases List.mem_append.mp hx with hx | hx
        · exact hcl' x hx
        · rw [List.mem_singleton.mp hx]
          have hb' : (Tree.add_ rest (Tree.mk seg none []) v cl).1 = b' := by rw [he]
          have hxl : b'.label = seg := by rw [← hb', add_label, Tree.label_mk]
          have hres := ih (Tree.mk seg none []) v cl (by rw [wfTree_mk]; rfl)
            (by rw [capInv_mk]; rfl) hne'
          rw [hb'] at hres
          have hxt : (b'.label == ([] : Seg)) = false := by simp [hxl, hseg]
          rw [hxt]
          simpa using hres

theorem allDistinct_iff_nodup {ls : List Seg} : allDistinct ls = true ↔ ls.Nodup := by
  induction ls with
  | nil => simp [allDistinct]
  | cons l ls ih => simp [allDistinct, ih, List.nodup_cons]

theorem nodupTree_mk (l : Seg) (v : Option (α × List Seg)) (bs : List (Tree α)) :
    nodupTree (Tree.mk l v bs) = (allDistinct (bs.map Tree.label) && nodupList bs) := rfl

theorem nodupList_iff {bs : List (Tree α)} :
    nodupList bs = true ↔ ∀ b ∈ bs, nodupTree b = true := by
  induction bs with
  | nil => simp [nodupList]
  | cons b bs ih => simp [nodupList, ih]

theorem nodup_add : ∀ (segs : List Seg) (t : Tree α) (v : α) (cl : List Seg),
    nodupTree t = true → nodupTree (Tree.add_ segs t v cl).1 = true := by
  intro segs
  induction segs with
  | nil =>
    intro t v cl hn
    cases t with
    | mk lb val bs =>
      cases val with
      | some p => exact hn
      | none => simpa [Tree.add_, nodupTree_mk] using hn
  | cons seg rest ih =>
    intro t v cl hn
    cases t with
    | mk lb val bs =>
    rw [nodupTree_mk, Bool.and_eq_true] at hn
    obtain ⟨hnd, hnl⟩ := hn
    have hnl' := nodupList_iff.mp hnl
    simp only [Tree.add_, Tree.branches_mk, Tree.label_mk, Tree.value_mk]
    cases hu : updateFirst (fun b => b.label == seg) (fun b => Tree.add_ rest b v cl) bs with
    | some v2 =>
      obtain ⟨bs', e⟩ := v2
      obtain ⟨pl, b, pr, hbs, -, -, hbs', -⟩ := updateFirst_eq_some hu
      have hbmem : b ∈ bs := by
        rw [hbs]; exact List.mem_append.mpr (Or.inr (List.mem_cons_self b pr))
      have hlabels : bs'.map Tree.label = bs.map Tree.label := by
        rw [hbs', hbs]
        simp [add_label]
      rw [nodupTree_mk, Bool.and_eq_true]
      constructor
      · rw [hlabels]; exact hnd
      · rw [nodupList_iff]
        intro x hx
        rw [hbs'] at hx
        rcases List.mem_append.mp hx with hx | hx
        · exact hnl' x (by rw [hbs]; exact List.mem_append.mpr (Or.inl hx))
        · rcases List.mem_cons.mp hx with rfl | hx
          · exact ih b v cl (hnl' b hbmem)
          · exact hnl' x
              (by rw [hbs]; exact List.mem_append.mpr (Or.inr (List.mem_cons_of_mem b hx)))
    | none =>
      have hnone : ∀ b ∈ bs, (b.label == seg) = false := by
        have := updateFirst_eq_none.mp hu
        intro b hb
        simpa using this b hb
      by_cases h : startsColon seg
      · rw [if_pos h]
        cases hu2 : updateFirst (fun b => b.label == ([] : Seg))
            (fun b => Tree.add_ rest b v (cl ++ [seg.tail])) bs with
        | some v2 =>
          obtain ⟨bs', e⟩ := v2
          obtain ⟨pl, b, pr, hbs, -, -, hbs', -⟩ := updateFirst_eq_some hu2
          have hbmem : b ∈ bs := by
            rw [hbs]; exact List.mem_append.mpr (Or.inr (List.mem_cons_self b pr))
          have hlabels : bs'.map Tree.label = bs.map Tree.label := by
            rw [hbs', hbs]
            simp [add_label]
          rw [nodupTree_mk, Bool.and_eq_true]
          constructor
          · rw [hlabels]; exact hnd
          · rw [nodupList_iff]
            intro x hx
            rw [hbs'] at hx
            rcases List.mem_append.mp hx with hx | hx
            · exact hnl' x (by rw [hbs]; exact List.mem_append.mpr (Or.inl hx))
            · rcases List.mem_cons.mp hx with rfl | hx
              · exact ih b v (cl ++ [seg.tail]) (hnl' b hbmem)
              · exact hnl' x
                  (by rw [hbs]; exact List.mem_append.mpr (Or.inr (List.mem_cons_of_mem b hx)))
        | none =>
          have hnone2 : ∀ b ∈ bs, (b.label == ([] : Seg)) = false := by
            have := updateFirst_eq_none.mp hu2
            intro b hb
            simpa using this b hb
          rcases he : Tree.add_ rest (Tree.mk [] none []) v (cl ++ [seg.tail]) with ⟨b', e⟩
          have hferr := add_fresh_no_err rest [] v (cl ++ [seg.tail])
          rw [he] at hferr
          simp only at hferr
          subst hferr
          have hb' : (Tree.add_ rest (Tree.mk [] none []) v (cl ++ [seg.tail])).1 = b' := by
            rw [he]
          have hxl : b'.label = ([] : Seg) := by rw [← hb', add_label, Tree.label_mk]
          rw [nodupTree_mk, Bool.and_eq_true]
          constructor
          · rw [allDistinct_iff_nodup, List.map_append, List.map_cons, List.map_nil]
            rw [List.nodup_append]
            refine ⟨allDistinct_iff_nodup.mp hnd, List.nodup_singleton _, ?_⟩
            intro y hy
            simp only [List.mem_singleton]
            intro hy2
            obtain ⟨z, hz, hzl⟩ := List.mem_map.mp hy
            rw [hy2, hxl] at hzl
            have := hnone2 z hz
            rw [hzl] at this
            simp at this
          · rw [nodupList_iff]
            intro x hx
            rcases List.mem_append.mp hx with hx | hx
            · exact hnl' x hx
            · rw [List.mem_singleton.mp hx, ← hb']
              exact ih (Tree.mk [] none []) v (cl ++ [seg.tail]) rfl
      · rw [if_neg h]
        rcases he : Tree.add_ rest (Tree.mk seg none []) v cl with ⟨b', e⟩
        have hferr := add_fresh_no_err rest seg v cl
        rw [he] at hferr
        simp only at hferr
        subst hferr
        have hb' : (Tree.add_ rest (Tree.mk seg none []) v cl).1 = b' := by rw [he]
        have hxl : b'.label = seg := by rw [← hb', add_label, Tree.label_mk]
        rw [nodupTree_mk, Bool.and_eq_true]
        constructor
        · rw [allDistinct_iff_nodup, List.map_append, List.map_cons, List.map_nil]
          rw [List.nodup_append]
          refine ⟨allDistinct_iff_nodup.mp hnd, List.nodup_singleton _, ?_⟩
          intro y hy
          simp only [List.mem_singleton]
          intro hy2
          obtain ⟨z, hz, hzl⟩ := List.mem_map.mp hy
          rw [hy2, hxl] at hzl
          have := hnone z hz
          rw [hzl] at this
          simp at this
        · rw [nodupList_iff]
          intro x hx
          rcases List.mem_append.mp hx with hx | hx
          · exact hnl' x hx
          · rw [List.mem_singleton.mp hx, ← hb']
            exact ih (Tree.mk seg none []) v cl rfl

/-!
## Invariants of built trees
-/

theorem built_wf {t : Tree α} (h : Built t) : wfTree t = true := by
  induction h with
  | new => rfl
  | add t key v hb ih => exact wf_add (segments key) t v [] ih

theorem built_nodup {t : Tree α} (h : Built t) : nodupTree t = true := by
  induction h with
  | new => rfl
  | add t key v hb ih => exact nodup_add (segments key) t v [] ih

theorem built_capInv {t : Tree α} (h : Built t) : capInv 0 t = true := by
  induction h with
  | new => rfl
  | add t key v hb ih =>
    exact capInv_add (segments key) t v [] (built_wf hb) ih (mem_segments_ne_nil key)

/-!
## Where `add` places terminals, and when it fails
-/

theorem find?_append_cons {p : Tree α → Bool} {pl : List (Tree α)} {b : Tree α}
    {pr : List (Tree α)} (hl : ∀ x ∈ pl, p x = false) (hb : p b = true) :
    List.find? p (pl ++ b :: pr) = some b := by
  induction pl with
  | nil =>
    rw [List.nil_append]
    exact List.find?_cons_of_pos pr hb
  | cons x pl ih =>
    rw [List.cons_append, List.find?_cons_of_neg _ (by simp [hl x (List.mem_cons_self x pl)])]
    exact ih (fun y hy => hl y (List.mem_cons_of_mem x hy))

theorem find?_none {p : Tree α → Bool} {bs : List (Tree α)}
    (h : ∀ x ∈ bs, p x = false) : List.find? p bs = none := by
  rw [List.find?_eq_none]
  intro x hx
  simp [h x hx]

theorem shapeOf_nil : shapeOf ([] : List Seg) = [] := rfl

theorem shapeOf_cons (s : Seg) (segs : List Seg) :
    shapeOf (s :: segs) = (if startsColon s then [] else s) :: shapeOf segs := rfl

theorem captureNames_nil : captureNames ([] : List Seg) = [] := rfl

theorem captureNames_cons (s : Seg) (segs : List Seg) :
    captureNames (s :: segs) =
      (if startsColon s then s.tail :: captureNames segs else captureNames segs) := rfl

theorem valueAt_nil (t : Tree α) : valueAt t [] = t.value := rfl

theorem valueAt_cons (t : Tree α) (l : Seg) (rest : List Seg) :
    valueAt t (l :: rest) =
      (match t.branches.find? (fun b => b.label == l) with
       | some b => valueAt b rest
       | none => none) := rfl

theorem hasTerminal_nil (t : Tree α) : hasTerminal t [] = t.value.isSome := rfl

theorem hasTerminal_cons (t : Tree α) (l : Seg) (rest : List Seg) :
    hasTerminal t (l :: rest) =
      (match t.branches.find? (fun b => b.label == l) with
       | some b => hasTerminal b rest
       | none => false) := by
  cases hf : t.branches.find? (fun b => b.label == l) <;>
    simp [hasTerminal, valueAt_cons, hf]

theorem add_cons_existing {seg : Seg} {rest : List Seg} {v : α} {cl : List Seg}
    {lb : Seg} {val : Option (α × List Seg)} {bs bs' : List (Tree α)} {e : Bool}
    (hu : updateFirst (fun b => b.label == seg) (fun b => Tree.add_ rest b v cl) bs =
      some (bs', e)) :
    Tree.add_ (seg :: rest) (Tree.mk lb val bs) v cl = (Tree.mk lb val bs', e) := by
  simp only [Tree.add_, Tree.branches_mk, Tree.label_mk, Tree.value_mk, hu]

theorem add_cons_colon_wild {seg : Seg} {rest : List Seg} {v : α} {cl : List Seg}
    {lb : Seg} {val : Option (α × List Seg)} {bs bs' : List (Tree α)} {e : Bool}
    (hu : updateFirst (fun b => b.label == seg) (fun b => Tree.add_ rest b v cl) bs = none)
    (hc : startsColon seg = true)
    (hu2 : updateFirst (fun b => b.label == ([] : Seg))
      (fun b => Tree.add_ rest b v (cl ++ [seg.tail])) bs = some (bs', e)) :
    Tree.add_ (seg :: rest) (Tree.mk lb val bs) v cl = (Tree.mk lb val bs', e) := by
  simp only [Tree.add_, Tree.branches_mk, Tree.label_mk, Tree.value_mk, hu, hc, hu2,
    eq_self_iff_true, if_true]

theorem add_cons_colon_fresh {seg : Seg} {rest : List Seg} {v : α} {cl : List Seg}
    {lb : Seg} {val : Option (α × List Seg)} {bs : List (Tree α)} {b' : Tree α}
    (hu : updateFirst (fun b => b.label == seg) (fun b => Tree.add_ rest b v cl) bs = none)
    (hc : startsColon seg = true)
    (hu2 : updateFirst (fun b => b.label == ([] : Seg))
      (fun b => Tree.add_ rest b v (cl ++ [seg.tail])) bs = none)
    (hadd : Tree.add_ rest (Tree.mk [] none []) v (cl ++ [seg.tail]) = (b', false)) :
    Tree.add_ (seg :: rest) (Tree.mk lb val bs) v cl = (Tree.mk lb val (bs ++ [b']), false) := by
  simp only [Tree.add_, Tree.branches_mk, Tree.label_mk, Tree.value_mk, hu, hc, hu2, hadd,
    eq_self_iff_true, if_true]

theorem add_cons_lit_fresh {seg : Seg} {rest : List Seg} {v : α} {cl : List Seg}
    {lb : Seg} {val : Option (α × List Seg)} {bs : List (Tree α)} {b' : Tree α}
    (hu : updateFirst (fun b => b.label == seg) (fun b => Tree.add_ rest b v cl) bs = none)
    (hc : startsColon seg = false)
    (hadd : Tree.add_ rest (Tree.mk seg none []) v cl = (b', false)) :
    Tree.add_ (seg :: rest) (Tree.mk lb val bs) v cl = (Tree.mk lb val (bs ++ [b']), false) := by
  simp only [Tree.add_, Tree.branches_mk, Tree.label_mk, Tree.value_mk, hu, hc, hadd,
    Bool.false_eq_true, if_false]

theorem valueAt_add_fresh : ∀ (segs : List Seg) (l : Seg) (v : α) (cl : List Seg),
    valueAt (Tree.add_ segs (Tree.mk l none []) v cl).1 (shapeOf segs) =
      some (v, cl ++ captureNames segs) := by
  intro segs
  induction segs with
  | nil =>
    intro l v cl
    simp [Tree.add_, shapeOf_nil, valueAt_nil, captureNames_nil]
  | cons seg rest ih =>
    intro l v cl
    by_cases h : startsColon seg
    · rcases he : Tree.add_ rest (Tree.mk [] none []) v (cl ++ [seg.tail]) with ⟨b', e⟩
      have he2 : e = false := by
        have hferr := add_fresh_no_err rest [] v (cl ++ [seg.tail])
        rw [he] at hferr
        exact hferr
      subst he2
      have hu0 : updateFirst (fun b => b.label == seg) (fun b => Tree.add_ rest b v cl)
          ([] : List (Tree α)) = none := rfl
      have hu20 : updateFirst (fun b => b.label == ([] : Seg))
          (fun b => Tree.add_ rest b v (cl ++ [seg.tail])) ([] : List (Tree α)) = none := rfl
      have hL : Tree.add_ (seg :: rest) (Tree.mk l none []) v cl =
          (Tree.mk l none (([] : List (Tree α)) ++ [b']), false) :=
        add_cons_colon_fresh hu0 h hu20 he
      have h1 : (Tree.add_ (seg :: rest) (Tree.mk l none []) v cl).1 =
          Tree.mk l none (([] : List (Tree α)) ++ [b']) := by rw [hL]
      have hb1 : (Tree.add_ rest (Tree.mk [] none []) v (cl ++ [seg.tail])).1 = b' := by rw [he]
      have hxl : b'.label = ([] : Seg) := by
        rw [← hb1, add_label, Tree.label_mk]
      rw [h1, shapeOf_cons, if_pos h, valueAt_cons, Tree.branches_mk]
      have hfind : List.find? (fun b => b.label == ([] : Seg)) ([] ++ b' :: []) = some b' :=
        find?_append_cons (by simp) (by simp [hxl])
      simp only [hfind]
      rw [← hb1, ih [] v (cl ++ [seg.tail]), captureNames_cons, if_pos h, List.append_assoc]
      rfl
    · have hcf : startsColon seg = false := by simpa using h
      rcases he : Tree.add_ rest (Tree.mk seg none []) v cl with ⟨b', e⟩
      have he2 : e = false := by
        have hferr := add_fresh_no_err rest seg v cl
        rw [he] at hferr
        exact hferr
      subst he2
      have hu0 : updateFirst (fun b => b.label == seg) (fun b => Tree.add_ rest b v cl)
          ([] : List (Tree α)) = none := rfl
      have hL : Tree.add_ (seg :: rest) (Tree.mk l none []) v cl =
          (Tree.mk l none (([] : List (Tree α)) ++ [b']), false) :=
        add_cons_lit_fresh hu0 hcf he
      have h1 : (Tree.add_ (seg :: rest) (Tree.mk l none []) v cl).1 =
          Tree.mk l none (([] : List (Tree α)) ++ [b']) := by rw [hL]
      have hb1 : (Tree.add_ rest (Tree.mk seg none []) v cl).1 = b' := by rw [he]
      have hxl : b'.label = seg := by
        rw [← hb1, add_label, Tree.label_mk]
      rw [h1, shapeOf_cons, if_neg h, valueAt_cons, Tree.branches_mk]
      have hfind : List.find? (fun b => b.label == seg) ([] ++ b' :: []) = some b' :=
        find?_append_cons (by simp) (by simp [hxl])
      simp only [hfind]
      rw [← hb1, ih seg v cl, captureNames_cons, if_neg h]

theorem add_valueAt : ∀ (segs : List Seg) (t : Tree α) (v : α) (cl : List Seg),
    wfTree t = true → (Tree.add_ segs t v cl).2 = false →
    valueAt (Tree.add_ segs t v cl).1 (shapeOf segs) = some (v, cl ++ captureNames segs) := by
  intro segs
  induction segs with
  | nil =>
    intro t v cl hw he
    cases t with
    | mk lb val bs =>
      cases val with
      | some p => simp [Tree.add_] at he
      | none => simp [Tree.add_, shapeOf_nil, valueAt_nil, captureNames_nil]
  | cons seg rest ih =>
    intro t v cl hw he
    cases t with
    | mk lb val bs =>
    rw [wfTree_mk] at hw
    have hwl := wfList_iff.mp hw
    cases hu : updateFirst (fun b => b.label == seg) (fun b => Tree.add_ rest b v cl) bs with
    | some v2 =>
      obtain ⟨bs', e⟩ := v2
      have hL : Tree.add_ (seg :: rest) (Tree.mk lb val bs) v cl = (Tree.mk lb val bs', e) :=
        add_cons_existing hu
      have he2 : e = false := by
        rw [hL] at he
        exact he
      subst he2
      obtain ⟨pl, b, pr, hbs, hplf, hpb, hbs', hee⟩ := updateFirst_eq_some hu
      have hblab : b.label = seg := by simpa using hpb
      have hbmem : b ∈ bs := by
        rw [hbs]; exact List.mem_append.mpr (Or.inr (List.mem_cons_self b pr))
      have hcolon : startsColon seg = false := by
        have := (hwl b hbmem).1
        rwa [hblab] at this
      have herr : (Tree.add_ rest b v cl).2 = false := hee.symm
      have h1 : (Tree.add_ (seg :: rest) (Tree.mk lb val bs) v cl).1 = Tree.mk lb val bs' := by
        rw [hL]
      rw [h1, shapeOf_cons, hcolon, captureNames_cons, hcolon]
      simp only [Bool.false_eq_true, if_false]
      rw [valueAt_cons, Tree.branches_mk, hbs']
      have hfind : List.find? (fun x => x.label == seg)
          (pl ++ (Tree.add_ rest b v cl).1 :: pr) = some (Tree.add_ rest b v cl).1 :=
        find?_append_cons (fun x hx => by simpa using hplf x hx) (by simp [add_label, hblab])
      simp only [hfind]
      exact ih b v cl (hwl b hbmem).2 herr
    | none =>
      by_cases h : startsColon seg
      · cases hu2 : updateFirst (fun b => b.label == ([] : Seg))
            (fun b => Tree.add_ rest b v (cl ++ [seg.tail])) bs with
        | some v2 =>
          obtain ⟨bs', e⟩ := v2
          have hL : Tree.add_ (seg :: rest) (Tree.mk lb val bs) v cl =
              (Tree.mk lb val bs', e) := add_cons_colon_wild hu h hu2
          have he2 : e = false := by
            rw [hL] at he
            exact he
          subst he2
          obtain ⟨pl, b, pr, hbs, hplf, hpb, hbs', hee⟩ := updateFirst_eq_some hu2
          have hblab : b.label = ([] : Seg) := by simpa using hpb
          have hbmem : b ∈ bs := by
            rw [hbs]; exact List.mem_append.mpr (Or.inr (List.mem_cons_self b pr))
          have herr : (Tree.add_ rest b v (cl ++ [seg.tail])).2 = false := hee.symm
          have h1 : (Tree.add_ (seg :: rest) (Tree.mk lb val bs) v cl).1 =
              Tree.mk lb val bs' := by rw [hL]
          rw [h1, shapeOf_cons, if_pos h, captureNames_cons, if_pos h]
          rw [valueAt_cons, Tree.branches_mk, hbs']
          have hfind : List.find? (fun x => x.label == ([] : Seg))
              (pl ++ (Tree.add_ rest b v (cl ++ [seg.tail])).1 :: pr) =
              some (Tree.add_ rest b v (cl ++ [seg.tail])).1 :=
            find?_append_cons (fun x hx => by simpa using hplf x hx)
              (by simp [add_label, hblab])
          simp only [hfind]
          rw [ih b v (cl ++ [seg.tail]) (hwl b hbmem).2 herr, List.append_assoc]
          rfl
        | none =>
          rcases hadd : Tree.add_ rest (Tree.mk [] none []) v (cl ++ [seg.tail]) with ⟨b', e⟩
          have he2 : e = false := by
            have hferr := add_fresh_no_err rest [] v (cl ++ [seg.tail])
            rw [hadd] at hferr
            exact hferr
          subst he2
          have hL : Tree.add_ (seg :: rest) (Tree.mk lb val bs) v cl =
              (Tree.mk lb val (bs ++ [b']), false) := add_cons_colon_fresh hu h hu2 hadd
          have h1 : (Tree.add_ (seg :: rest) (Tree.mk lb val bs) v cl).1 =
              Tree.mk lb val (bs ++ [b']) := by rw [hL]
          have hb1 : (Tree.add_ rest (Tree.mk [] none []) v (cl ++ [seg.tail])).1 = b' := by
            rw [hadd]
          have hxl : b'.label = ([] : Seg) := by rw [← hb1, add_label, Tree.label_mk]
          have hnone2 : ∀ x ∈ bs, (x.label == ([] : Seg)) = false := by
            have := updateFirst_eq_none.mp hu2
            intro x hx
            simpa using this x hx
          rw [h1, shapeOf_cons, if_pos h, captureNames_cons, if_pos h]
          rw [valueAt_cons, Tree.branches_mk]
          have hfind : List.find? (fun x => x.label == ([] : Seg)) (bs ++ b' :: []) = some b' :=
            find?_append_cons hnone2 (by simp [hxl])
          simp only [show bs ++ [b'] = bs ++ b' :: [] from rfl, hfind]
          rw [← hb1, valueAt_add_fresh rest [] v (cl ++ [seg.tail]), List.append_assoc]
          rfl
      · have hcf : startsColon seg = false := by simpa using h
        rcases hadd : Tree.add_ rest (Tree.mk seg none []) v cl with ⟨b', e⟩
        have he2 : e = false := by
          have hferr := add_fresh_no_err rest seg v cl
          rw [hadd] at hferr
          exact hferr
        subst he2
        have hL : Tree.add_ (seg :: rest) (Tree.mk lb val bs) v cl =
            (Tree.mk lb val (bs ++ [b']), false) := add_cons_lit_fresh hu hcf hadd
        have h1 : (Tree.add_ (seg :: rest) (Tree.mk lb val bs) v cl).1 =
            Tree.mk lb val (bs ++ [b']) := by rw [hL]
        have hb1 : (Tree.add_ rest (Tree.mk seg none []) v cl).1 = b' := by rw [hadd]
        have hxl : b'.label = seg := by rw [← hb1, add_label, Tree.label_mk]
        have hnone : ∀ x ∈ bs, (x.label == seg) = false := by
          have := updateFirst_eq_none.mp hu
          intro x hx
          simpa using this x hx
        rw [h1, shapeOf_cons, if_neg h, captureNames_cons, if_neg h]
        rw [valueAt_cons, Tree.branches_mk]
        have hfind : List.find? (fun x => x.label == seg) (bs ++ b' :: []) = some b' :=
          find?_append_cons hnone (by simp [hxl])
        simp only [show bs ++ [b'] = bs ++ b' :: [] from rfl, hfind]
        rw [← hb1, valueAt_add_fresh rest seg v cl]

theorem add_err_iff : ∀ (segs : List Seg) (t : Tree α) (v : α) (cl : List Seg),
    wfTree t = true →
    ((Tree.add_ segs t v cl).2 = true ↔ hasTerminal t (shapeOf segs) = true) := by
  intro segs
  induction segs with
  | nil =>
    intro t v cl hw
    cases t with
    | mk lb val bs =>
      cases val with
      | some p => simp [Tree.add_, shapeOf_nil, hasTerminal_nil]
      | none => simp [Tree.add_, shapeOf_nil, hasTerminal_nil]
  | cons seg rest ih =>
    intro t v cl hw
    cases t with
    | mk lb val bs =>
    rw [wfTree_mk] at hw
    have hwl := wfList_iff.mp hw
    cases hu : updateFirst (fun b => b.label == seg) (fun b => Tree.add_ rest b v cl) bs with
    | some v2 =>
      obtain ⟨bs', e⟩ := v2
      have hL : Tree.add_ (seg :: rest) (Tree.mk lb val bs) v cl = (Tree.mk lb val bs', e) :=
        add_cons_existing hu
      obtain ⟨pl, b, pr, hbs, hplf, hpb, hbs', hee⟩ := updateFirst_eq_some hu
      have hblab : b.label = seg := by simpa using hpb
      have hbmem : b ∈ bs := by
        rw [hbs]; exact List.mem_append.mpr (Or.inr (List.mem_cons_self b pr))
      have hcolon : startsColon seg = false := by
        have := (hwl b hbmem).1
        rwa [hblab] at this
      have h2 : (Tree.add_ (seg :: rest) (Tree.mk lb val bs) v cl).2 = e := by rw [hL]
      rw [h2, shapeOf_cons, hcolon]
      simp only [Bool.false_eq_true, if_false]
      rw [hasTerminal_cons, Tree.branches_mk]
      have hfind : List.find? (fun x => x.label == seg) bs = some b := by
        rw [hbs]
        exact find?_append_cons (fun x hx => by simpa using hplf x hx) (by simp [hblab])
      simp only [hfind]
      rw [hee]
      exact ih b v cl (hwl b hbmem).2
    | none =>
      by_cases h : startsColon seg
      · rw [shapeOf_cons, if_pos h, hasTerminal_cons, Tree.branches_mk]
        cases hu2 : updateFirst (fun b => b.label == ([] : Seg))
            (fun b => Tree.add_ rest b v (cl ++ [seg.tail])) bs with
        | some v2 =>
          obtain ⟨bs', e⟩ := v2
          have hL : Tree.add_ (seg :: rest) (Tree.mk lb val bs) v cl =
              (Tree.mk lb val bs', e) := add_cons_colon_wild hu h hu2
          obtain ⟨pl, b, pr, hbs, hplf, hpb, hbs', hee⟩ := updateFirst_eq_some hu2
          have hblab : b.label = ([] : Seg) := by simpa using hpb
          have hbmem : b ∈ bs := by
            rw [hbs]; exact List.mem_append.mpr (Or.inr (List.mem_cons_self b pr))
          have h2 : (Tree.add_ (seg :: rest) (Tree.mk lb val bs) v cl).2 = e := by rw [hL]
          rw [h2]
          have hfind : List.find? (fun x => x.label == ([] : Seg)) bs = some b := by
            rw [hbs]
            exact find?_append_cons (fun x hx => by simpa using hplf x hx) (by simp [hblab])
          simp only [hfind]
          rw [hee]
          exact ih b v (cl ++ [seg.tail]) (hwl b hbmem).2
        | none =>
          have hnone2 : ∀ x ∈ bs, (x.label == ([] : Seg)) = false := by
            have := updateFirst_eq_none.mp hu2
            intro x hx
            simpa using this x hx
          rcases hadd : Tree.add_ rest (Tree.mk [] none []) v (cl ++ [seg.tail]) with ⟨b', e⟩
          have he2 : e = false := by
            have hferr := add_fresh_no_err rest [] v (cl ++ [seg.tail])
            rw [hadd] at hferr
            exact hferr
          subst he2
          have hL : Tree.add_ (seg :: rest) (Tree.mk lb val bs) v cl =
              (Tree.mk lb val (bs ++ [b']), false) := add_cons_colon_fresh hu h hu2 hadd
          have h2 : (Tree.add_ (seg :: rest) (Tree.mk lb val bs) v cl).2 = false := by rw [hL]
          rw [h2, find?_none hnone2]
      · have hcf : startsColon seg = false := by simpa using h
        rw [shapeOf_cons, if_neg h, hasTerminal_cons, Tree.branches_mk]
        have hnone : ∀ x ∈ bs, (x.label == seg) = false := by
          have := updateFirst_eq_none.mp hu
          intro x hx
          simpa using this x hx
        rcases hadd : Tree.add_ rest (Tree.mk seg none []) v cl with ⟨b', e⟩
        have he2 : e = false := by
          have hferr := add_fresh_no_err rest seg v cl
          rw [hadd] at hferr
          exact hferr
        subst he2
        have hL : Tree.add_ (seg :: rest) (Tree.mk lb val bs) v cl =
            (Tree.mk lb val (bs ++ [b']), false) := add_cons_lit_fresh hu hcf hadd
        have h2 : (Tree.add_ (seg :: rest) (Tree.mk lb val bs) v cl).2 = false := by rw [hL]
        rw [h2, find?_none hnone]

/-!
## Wrapper lemmas for `find`
-/

theorem find_eq_none_iff (t : Tree α) (key : String) :
    Tree.find t key = none ↔ (Tree.find_ (segments key) t []).1 = none := by
  rcases h : Tree.find_ (segments key) t [] with ⟨res, cap⟩
  cases res with
  | some r =>
    obtain ⟨v, labels⟩ := r
    simp [Tree.find, h]
  | none => simp [Tree.find, h]

theorem findList_skip {f : Tree α → List Seg → Option (α × List Seg) × List Seg} {seg : Seg} :
    ∀ (pre bs : List (Tree α)) (cap : List Seg),
      (∀ x ∈ pre, x.label ≠ seg ∧ x.label ≠ []) →
      findList f seg (pre ++ bs) cap = findList f seg bs cap := by
  intro pre
  induction pre with
  | nil => intro bs cap _; rfl
  | cons x pre ihp =>
    intro bs cap h
    rw [List.cons_append, findList_cons_other (h x (List.mem_cons_self x pre)).1
      (h x (List.mem_cons_self x pre)).2]
    exact ihp bs cap (fun y hy => h y (List.mem_cons_of_mem x hy))

/-!
## The claims
-/

/-- Claim C1, counterexample: the trie obtained by registering `/:x` (payload 1)
and then `/a` (payload 2) has, at the root, a wildcard child stored before a
literal child labelled `a` that carries its own terminal (payload 2); yet
looking up `/a` returns the wildcard's payload 1 with capture `x = a` instead
of attempting the literal child first. Candidates are tried in creation
order, not literal-first. -/
theorem C1_counterexample :
    ((Tree.new.add "/:x" (1 : Nat)).1.add "/a" 2).1.find "/a" = some (1, [(['x'], ['a'])]) ∧
    (((Tree.new.add "/:x" (1 : Nat)).1.add "/a" 2).1.branches.map Tree.label = [[], ['a']] ∧
     ((Tree.new.add "/:x" (1 : Nat)).1.add "/a" 2).1.branches.map Tree.value =
       [some (1, [['x']]), some (2, [])]) :=
  ⟨by decide, by decide, by decide⟩

/-- Claim C1 (amended): lookup tries the children of a node in storage
(creation) order. Whenever the literal child whose label equals the segment
precedes the wildcard child in the branch list, the literal subtree is
attempted first; if it fails to match, lookup falls back to the wildcard
sibling for that same segment (pushing the segment as a capture) instead of
failing the whole lookup, and if the wildcard subtree also fails the
remaining siblings are tried with the capture stack restored. -/
theorem C1_literal_then_wildcard {α : Type} (lit wild : Tree α) (bs pre : List (Tree α))
    (lb : Seg) (val : Option (α × List Seg)) (seg : Seg) (rest cap : List Seg)
    (hpre : ∀ x ∈ pre, x.label ≠ seg ∧ x.label ≠ [])
    (hlit : lit.label = seg) (hwild : wild.label = []) (hseg : seg ≠ []) :
    Tree.find_ (seg :: rest) (Tree.mk lb val (pre ++ lit :: wild :: bs)) cap =
      (match Tree.find_ rest lit cap with
       | (some r, cap') => (some r, cap')
       | (none, _) =>
         match Tree.find_ rest wild (cap ++ [seg]) with
         | (some r, cap') => (some r, cap')
         | (none, _) => findList (fun b c => Tree.find_ rest b c) seg bs cap) := by
  rw [find_cons, Tree.branches_mk, findList_skip pre _ cap hpre]
  rcases h1 : Tree.find_ rest lit cap with ⟨res1, cap1⟩
  cases res1 with
  | some r =>
    rw [findList_cons_lit_some hlit h1]
  | none =>
    have hc1 : cap1 = cap := find_restore rest lit cap cap1 h1
    rw [findList_cons_lit_none hlit h1, hc1]
    have hwn : wild.label ≠ seg := fun hh => hseg (by rw [← hh, hwild])
    rcases h2 : Tree.find_ rest wild (cap ++ [seg]) with ⟨res2, cap2⟩
    cases res2 with
    | some r =>
      rw [findList_cons_wild_some hwn hwild h2]
    | none =>
      have hc2 : cap2 = cap ++ [seg] := find_restore rest wild (cap ++ [seg]) cap2 h2
      subst hc2
      rw [findList_cons_wild_none hwn hwild h2]
      rw [show (cap ++ [seg]).dropLast = cap from by simp]

/-- Claim C1, witness: the amended theorem applied to a node whose literal
child (terminal 2) precedes its wildcard child (terminal 1). -/
theorem C1_witness :
    Tree.find_ [['a']]
      (Tree.mk [] none
        [Tree.mk ['a'] (some ((2 : Nat), [])) [], Tree.mk [] (some (1, [['x']])) []]) [] =
      (match Tree.find_ [] (Tree.mk ['a'] (some ((2 : Nat), [])) []) [] with
       | (some r, cap') => (some r, cap')
       | (none, _) =>
         match Tree.find_ [] (Tree.mk [] (some ((1 : Nat), [['x']])) []) ([] ++ [['a']]) with
         | (some r, cap') => (some r, cap')
         | (none, _) => findList (fun b c => Tree.find_ [] b c) ['a'] [] []) :=
  C1_literal_then_wildcard (Tree.mk ['a'] (some ((2 : Nat), [])) [])
    (Tree.mk [] (some (1, [['x']])) []) [] [] [] none ['a'] [] []
    (by decide) (by decide) (by decide) (by decide)

/-- Claim C2, counterexample: `/a/:x` (payload 1) registers successfully; the
normalized segment sequence of `/a/:y` differs from that of `/a/:x`, yet
inserting `/a/:y` afterwards fails with the duplicate-route error, because
both patterns collapse to the same wildcard-shaped trie path. -/
theorem C2_counterexample :
    (Tree.new.add "/a/:x" (1 : Nat)).2 = false ∧
    segments "/a/:x" ≠ segments "/a/:y" ∧
    ((Tree.new.add "/a/:x" (1 : Nat)).1.add "/a/:y" 2).2 = true :=
  ⟨by decide, by decide, by decide⟩

/-- Claim C2 (amended): on a well-formed trie (one built by `add`, whose
labels never start with a colon), `insert` fails with the duplicate-route
error if and only if the pattern's normalized segment sequence, after
collapsing every capture segment to the shared wildcard (empty) label,
coincides with the collapsed sequence of a pattern already terminated in the
trie; any insert whose collapsed sequence reaches no existing terminal
succeeds. -/
theorem C2_duplicate_iff_shape {α : Type} (t : Tree α) (key : String) (v : α)
    (hw : wfTree t = true) :
    ((Tree.add t key v).2 = true ↔ hasTerminal t (shapeOf (segments key)) = true) :=
  add_err_iff (segments key) t v [] hw

/-- Claim C2, witness: the amended equivalence applied to the trie holding
`/a/:x`, for the pattern `/a/:y`. -/
theorem C2_witness :
    wfTree ((Tree.new.add "/a/:x" (1 : Nat)).1) = true ∧
    (((Tree.new.add "/a/:x" (1 : Nat)).1.add "/a/:y" 2).2 = true ↔
      hasTerminal ((Tree.new.add "/a/:x" (1 : Nat)).1) (shapeOf (segments "/a/:y")) = true) :=
  ⟨by decide, C2_duplicate_iff_shape ((Tree.new.add "/a/:x" (1 : Nat)).1) "/a/:y" 2 (by decide)⟩

/-- Claim C3: for every trie, segment list and incoming captured stack, a
failing lookup returns the captured stack exactly as it found it, and a
successful lookup returns the incoming stack extended by exactly the
segments consumed by the wildcard nodes of the successful root-to-terminal
path, in order (the `Matches` derivation records those wildcard segments). -/
theorem C3_backtracking_stack {α : Type} (t : Tree α) (segs cap : List Seg) :
    ((Tree.find_ segs t cap).1 = none → (Tree.find_ segs t cap).2 = cap) ∧
    (∀ r, (Tree.find_ segs t cap).1 = some r →
      ∃ ws, (Tree.find_ segs t cap).2 = cap ++ ws ∧ Matches t segs ws r) := by
  constructor
  · intro h
    rcases he : Tree.find_ segs t cap with ⟨res, cap'⟩
    rw [he] at h
    cases res with
    | some r => simp at h
    | none =>
      exact find_restore segs t cap cap' he
  · intro r h
    rcases he : Tree.find_ segs t cap with ⟨res, cap'⟩
    rw [he] at h
    cases res with
    | none => simp at h
    | some r0 =>
      have hr : r0 = r := by simpa using h
      subst hr
      obtain ⟨ws, hw, hm⟩ := find_sound segs t cap r0 cap' he
      refine ⟨ws, ?_, hm⟩
      exact hw

/-- Claim C3, witness: with only `/:x/b` registered, looking up `/a` pushes
the segment for the wildcard, fails below it, and leaves the stack empty;
and the successful lookup of `/user/myname` yields a stack produced by a
matching derivation. -/
theorem C3_witness :
    ((Tree.find_ (segments "/a") ((Tree.new.add "/:x/b" (5 : Nat)).1) []).1 = none ∧
     (Tree.find_ (segments "/a") ((Tree.new.add "/:x/b" (5 : Nat)).1) []).2 = []) ∧
    (∃ ws, (Tree.find_ (segments "/user/myname") treeUser []).2 = [] ++ ws ∧
      Matches treeUser (segments "/user/myname") ws (11, ["username".data])) :=
  ⟨⟨by decide, (C3_backtracking_stack ((Tree.new.add "/:x/b" (5 : Nat)).1)
      (segments "/a") []).1 (by decide)⟩,
   (C3_backtracking_stack treeUser (segments "/user/myname") []).2
      (11, ["username".data]) (by decide)⟩

/-- Claim C4: a successful lookup returns the positional zip of the matched
terminal's stored capture names with the captured segment values, in order. -/
theorem C4_zip_captures {α : Type} (t : Tree α) (key : String) (v : α)
    (names cap : List Seg)
    (h : Tree.find_ (segments key) t [] = (some (v, names), cap)) :
    Tree.find t key = some (v, names.zip cap) := by
  simp [Tree.find, h]

/-- Claim C4, witness: for registered pattern `/user/:username/:intent/show`,
lookup of `/user/myname/cook/show` returns `("username","myname")` then
`("intent","cook")`, in that order. -/
theorem C4_witness :
    Tree.find_ (segments "/user/myname/cook/show")
      ((Tree.new.add "/user/:username/:intent/show" (0 : Nat)).1) [] =
      (some (0, ["username".data, "intent".data]), ["myname".data, "cook".data]) ∧
    ((Tree.new.add "/user/:username/:intent/show" (0 : Nat)).1).find "/user/myname/cook/show" =
      some (0, [("username".data, "myname".data), ("intent".data, "cook".data)]) :=
  ⟨by decide,
   C4_zip_captures ((Tree.new.add "/user/:username/:intent/show" (0 : Nat)).1)
     "/user/myname/cook/show" 0 ["username".data, "intent".data]
     ["myname".data, "cook".data] (by decide)⟩

/-- Claim C5: segmentation splits on `/` and discards empty pieces, so both
`find` and `add` are invariant under repeated, leading and trailing slashes;
in particular, with the root pattern registered, `find "////"` behaves
exactly like `find "/"`. -/
theorem C5_slash_normalization {α : Type} (t : Tree α) (v : α) (xs ys : List Char) :
    (Tree.find t (String.mk (xs ++ '/' :: '/' :: ys)) =
        Tree.find t (String.mk (xs ++ '/' :: ys)) ∧
      Tree.add t (String.mk (xs ++ '/' :: '/' :: ys)) v =
        Tree.add t (String.mk (xs ++ '/' :: ys)) v) ∧
    (Tree.find t (String.mk ('/' :: ys)) = Tree.find t (String.mk ys) ∧
      Tree.add t (String.mk ('/' :: ys)) v = Tree.add t (String.mk ys) v) ∧
    (Tree.find t (String.mk (xs ++ ['/'])) = Tree.find t (String.mk xs) ∧
      Tree.add t (String.mk (xs ++ ['/'])) v = Tree.add t (String.mk xs) v) ∧
    ((Tree.new.add "/" (0 : Nat)).1.find "////" = (Tree.new.add "/" (0 : Nat)).1.find "/" ∧
      (Tree.new.add "/" (0 : Nat)).1.find "////" = some (0, [])) := by
  have hfind : ∀ k1 k2 : String, segments k1 = segments k2 →
      Tree.find t k1 = Tree.find t k2 := by
    intro k1 k2 h
    simp [Tree.find, h]
  have hadd : ∀ k1 k2 : String, segments k1 = segments k2 →
      Tree.add t k1 v = Tree.add t k2 v := by
    intro k1 k2 h
    simp [Tree.add, h]
  have hnil1 : segments (String.mk ([] : List Char)) = [] := by decide
  have hlead : ∀ zs : List Char, segments (String.mk ('/' :: zs)) = segments (String.mk zs) := by
    intro zs
    have h := segments_append [] zs
    rw [hnil1, List.nil_append, List.nil_append] at h
    exact h
  have hdouble : segments (String.mk (xs ++ '/' :: '/' :: ys)) =
      segments (String.mk (xs ++ '/' :: ys)) := by
    rw [segments_append xs ('/' :: ys), segments_append xs ys, hlead ys]
  have hnil0 : segments (String.mk ([] : List Char)) = [] := by decide
  have htrail : segments (String.mk (xs ++ ['/'])) = segments (String.mk xs) := by
    have h := segments_append xs []
    rw [hnil0, List.append_nil] at h
    exact h
  exact ⟨⟨hfind _ _ hdouble, hadd _ _ hdouble⟩,
    ⟨hfind _ _ (hlead ys), hadd _ _ (hlead ys)⟩,
    ⟨hfind _ _ htrail, hadd _ _ htrail⟩,
    by decide, by decide⟩

/-- Claim C5, witness: the concrete root-pattern instance extracted from the
theorem. -/
theorem C5_witness :
    (Tree.new.add "/" (0 : Nat)).1.find "////" = (Tree.new.add "/" (0 : Nat)).1.find "/" ∧
    (Tree.new.add "/" (0 : Nat)).1.find "////" = some (0, []) :=
  (C5_slash_normalization (Tree.new : Tree Nat) 0 [] []).2.2.2

/-- Claim C6: every trie built by a sequence of inserts satisfies the sibling
invariant — the labels of each node's children are pairwise distinct, hence
no two children share a non-empty literal label and at most one child is the
wildcard; moreover, inserting a pattern whose next segment is a capture at a
node that already has a wildcard child creates no new child there — the
capture descends into the single shared wildcard child, whatever its
parameter name. -/
theorem C6_sibling_invariant {α : Type} (t : Tree α) (hb : Built t) :
    nodupTree t = true ∧
    (∀ (seg : Seg) (rest cl : List Seg) (v : α), startsColon seg = true →
      (∃ b ∈ t.branches, b.label = []) →
      ((Tree.add_ (seg :: rest) t v cl).1).branches.length = t.branches.length) := by
  refine ⟨built_nodup hb, ?_⟩
  intro seg rest cl v hcolon hwild
  have hw := built_wf hb
  cases t with
  | mk lb val bs =>
  obtain ⟨b0, hb0mem, hb0lab⟩ := hwild
  rw [Tree.branches_mk] at hb0mem
  have hu : updateFirst (fun b => b.label == seg) (fun b => Tree.add_ rest b v cl) bs = none := by
    rw [updateFirst_eq_none]
    intro b hbm
    have hbw := (wfTree_iff.mp hw b (by simpa using hbm)).1
    have hne : b.label ≠ seg := by
      intro heq
      rw [heq, hcolon] at hbw
      exact absurd hbw (by simp)
    simp [hne]
  cases hu2 : updateFirst (fun b => b.label == ([] : Seg))
      (fun b => Tree.add_ rest b v (cl ++ [seg.tail])) bs with
  | none =>
    exfalso
    have := updateFirst_eq_none.mp hu2 b0 hb0mem
    rw [hb0lab] at this
    simp at this
  | some v2 =>
    obtain ⟨bs', e⟩ := v2
    have hL : Tree.add_ (seg :: rest) (Tree.mk lb val bs) v cl = (Tree.mk lb val bs', e) :=
      add_cons_colon_wild hu hcolon hu2
    have h1 : (Tree.add_ (seg :: rest) (Tree.mk lb val bs) v cl).1 = Tree.mk lb val bs' := by
      rw [hL]
    rw [h1, Tree.branches_mk, Tree.branches_mk]
    obtain ⟨pl, b, pr, hbs, -, -, hbs', -⟩ := updateFirst_eq_some hu2
    rw [hbs, hbs']
    simp

/-- Claim C6, witness: the invariant and the wildcard-sharing consequence on
the trie holding `/:x` when inserting a capture segment named differently. -/
theorem C6_witness :
    nodupTree ((Tree.new.add "/:x" (1 : Nat)).1) = true ∧
    ((Tree.add_ [[':', 'y'], ['c']] ((Tree.new.add "/:x" (1 : Nat)).1) 2 []).1).branches.length =
      ((Tree.new.add "/:x" (1 : Nat)).1).branches.length :=
  ⟨(C6_sibling_invariant ((Tree.new.add "/:x" (1 : Nat)).1)
      (Built.add Tree.new "/:x" 1 Built.new)).1,
   (C6_sibling_invariant ((Tree.new.add "/:x" (1 : Nat)).1)
      (Built.add Tree.new "/:x" 1 Built.new)).2 [':', 'y'] [['c']] [] 2
      (by decide) (by decide)⟩

/-- Claim C7: on a well-formed trie, a successful insertion stores, at the
node reached by the pattern's wildcard-collapsed shape, the terminal holding
this call's payload together with exactly this call's parameter names — one
per capture segment of the pattern, in left-to-right order — regardless of
which earlier insertion created the shared wildcard nodes on the way. -/
theorem C7_terminal_names {α : Type} (t : Tree α) (key : String) (v : α)
    (hw : wfTree t = true) (he : (Tree.add t key v).2 = false) :
    valueAt (Tree.add t key v).1 (shapeOf (segments key)) =
      some (v, captureNames (segments key)) := by
  have := add_valueAt (segments key) t v [] hw he
  simpa using this

/-- Claim C7, witness: after inserting `/:a/x` and then `/:b/y` (which share
the root wildcard node), the terminal at `x` stores name `a` and the terminal
at `y` stores name `b`. -/
theorem C7_witness :
    (((Tree.new.add "/:a/x" (1 : Nat)).1.add "/:b/y" 2).2 = false ∧
     valueAt (((Tree.new.add "/:a/x" (1 : Nat)).1.add "/:b/y" 2).1)
       (shapeOf (segments "/:b/y")) = some (2, [['b']])) ∧
    valueAt (((Tree.new.add "/:a/x" (1 : Nat)).1.add "/:b/y" 2).1)
      (shapeOf (segments "/:a/x")) = some (1, [['a']]) :=
  ⟨⟨by decide,
    C7_terminal_names ((Tree.new.add "/:a/x" (1 : Nat)).1) "/:b/y" 2 (by decide) (by decide)⟩,
   by decide⟩

/-- Claim C8: lookup of a path that matches no registered pattern — whether
its segment sequence is too long, too short, or a literal segment matches no
child — returns the explicit empty result `none` (and `none` is returned
exactly when no matching derivation exists, so this is a total function with
no error case); e.g. with only `/user/:username/profile` registered, looking
up `/user/myname/delete` yields no match. -/
theorem C8_no_match_none {α : Type} (t : Tree α) (key : String) :
    (Tree.find t key = none ↔ ¬ ∃ ws r, Matches t (segments key) ws r) ∧
    (Tree.new.add "/user/:username/profile" (7 : Nat)).1.find "/user/myname/delete" = none := by
  constructor
  · rw [find_eq_none_iff]
    constructor
    · rintro h ⟨ws, r, hm⟩
      have hs := find_complete hm []
      rw [h] at hs
      simp at hs
    · intro hn
      rcases he : Tree.find_ (segments key) t [] with ⟨res, cap⟩
      cases res with
      | none => rfl
      | some r =>
        exfalso
        obtain ⟨ws, -, hm⟩ := find_sound (segments key) t [] r cap he
        exact hn ⟨ws, r, hm⟩
  · decide

/-- Claim C8, witness: the concrete unmatched-path instance extracted from
the theorem. -/
theorem C8_witness :
    (Tree.new.add "/user/:username/profile" (7 : Nat)).1.find "/user/myname/delete" = none :=
  (C8_no_match_none (Tree.new : Tree Nat) "/x").2

/-- Claim C9: when an insertion fails with the duplicate-route error, the
trie is returned exactly as it was before the call — no node created, no
child list extended, and the conflicting terminal untouched. -/
theorem C9_error_leaves_unchanged {α : Type} (t : Tree α) (key : String) (v : α)
    (h : (Tree.add t key v).2 = true) : (Tree.add t key v).1 = t :=
  add_err_unchanged (segments key) t v [] h

/-- Claim C9, witness: re-inserting `/var` into the trie that already holds
it fails and returns the identical trie. -/
theorem C9_witness :
    ((Tree.new.add "/var" (1 : Nat)).1.add "/var" 2).2 = true ∧
    ((Tree.new.add "/var" (1 : Nat)).1.add "/var" 2).1 = (Tree.new.add "/var" (1 : Nat)).1 :=
  ⟨by decide, C9_error_leaves_unchanged ((Tree.new.add "/var" (1 : Nat)).1) "/var" 2 (by decide)⟩

/-- Claim C10: in every trie built by inserts, a successful lookup
accumulates exactly as many captured segment values as the matched
terminal's stored capture-name list has entries, so the final zip pairs
every stored name with a value and discards nothing. -/
theorem C10_capture_count {α : Type} (t : Tree α) (hb : Built t) (key : String) (v : α)
    (names : List Seg) (h : (Tree.find_ (segments key) t []).1 = some (v, names)) :
    ((Tree.find_ (segments key) t []).2).length = names.length := by
  rcases he : Tree.find_ (segments key) t [] with ⟨res, cap⟩
  rw [he] at h
  cases res with
  | none => simp at h
  | some r0 =>
    have hr : r0 = (v, names) := by simpa using h
    subst hr
    obtain ⟨ws, hw, hm⟩ := find_sound (segments key) t [] (v, names) cap he
    have hlen := matches_length hm 0 (built_capInv hb) (mem_segments_ne_nil key)
    rw [hw]
    simpa using hlen.symm

/-- Claim C10, witness: the two-capture lookup of the Rust unit test. -/
theorem C10_witness :
    (Tree.find_ (segments "/user/myname/cook/show") treeUser []).1 =
      some (111, ["username".data, "intent".data]) ∧
    ((Tree.find_ (segments "/user/myname/cook/show") treeUser []).2).length =
      (["username".data, "intent".data] : List Seg).length :=
  ⟨by decide,
   C10_capture_count treeUser
     (Built.add _ "/user/:username/profile" 112
       (Built.add _ "/user/:username/:intent/show" 111
         (Built.add _ "/user/:username" 11 Built.new)))
     "/user/myname/cook/show" 111 ["username".data, "intent".data] (by decide)⟩

end PathRouter
